import Mathlib

/-!
Verification development for the pattern-noise correction core of
transitspectroscopy (src/jwst.py): robust column statistics, the
illumination-mask estimator, the background outlier refiner, the ROEBA and
LOOM model builders, the last-minus-first slope estimator, and the slope
diagnostics of the stage1 correction driver.

Frames are embedded as functions from row and column indices to rationals,
together with explicit dimensions; every sum and median ranges over the
explicit index ranges, mirroring the numpy array extents.  The numpy
median of a list is the middle element of the sorted list for odd length
and the mean of the two middle elements for even length; nanmedian over a
masked array is the same median taken over the non-masked entries, and is
undefined (None) when no entry survives, mirroring the NaN it produces.
-/

/-- Sorted copy of a list of rationals, ascending. -/
def sortedList (l : List ℚ) : List ℚ := List.insertionSort (· ≤ ·) l

/-- Median of a list of rationals as computed by numpy: middle element of
the sorted list when the length is odd, mean of the two middle elements
when the length is even, undefined on the empty list. -/
def npMedian (l : List ℚ) : Option ℚ :=
  if l.length = 0 then none
  else if l.length % 2 = 1 then some ((sortedList l).getD ((l.length - 1) / 2) 0)
  else some (((sortedList l).getD (l.length / 2 - 1) 0 + (sortedList l).getD (l.length / 2) 0) / 2)

theorem sortedList_length (l : List ℚ) : (sortedList l).length = l.length :=
  (List.perm_insertionSort _ l).length_eq

theorem sortedList_sorted (l : List ℚ) : (sortedList l).Sorted (· ≤ ·) :=
  List.sorted_insertionSort _ l

theorem sortedList_mem (l : List ℚ) (x : ℚ) (h : x ∈ sortedList l) : x ∈ l :=
  (List.perm_insertionSort _ l).mem_iff.mp h

/-- A nonempty list has a defined numpy median. -/
theorem npMedian_of_ne_nil (l : List ℚ) (h : l ≠ []) : ∃ v, npMedian l = some v := by
  have hlen : l.length ≠ 0 := by
    simpa [List.length_eq_zero] using h
  unfold npMedian
  split_ifs with h0 h1
  · exact absurd h0 hlen
  · exact ⟨_, rfl⟩
  · exact ⟨_, rfl⟩

/-- The numpy median of a list of nonnegative rationals is nonnegative. -/
theorem npMedian_nonneg (l : List ℚ) (v : ℚ) (hl : ∀ x ∈ l, 0 ≤ x)
    (hv : npMedian l = some v) : 0 ≤ v := by
  have hs : ∀ k, k < l.length → 0 ≤ (sortedList l).getD k 0 := by
    intro k hk
    have hk' : k < (sortedList l).length := by rw [sortedList_length]; exact hk
    rw [List.getD_eq_getElem _ _ hk']
    exact hl _ (sortedList_mem l _ (List.getElem_mem hk'))
  unfold npMedian at hv
  split_ifs at hv with h0 h1
  · have h := hs ((l.length - 1) / 2) (by omega)
    simp only [Option.some.injEq] at hv
    exact hv ▸ h
  · have h := hs (l.length / 2 - 1) (by omega)
    have h2 := hs (l.length / 2) (by omega)
    simp only [Option.some.injEq] at hv
    rw [← hv]
    linarith

/-- Counting lemma for list prefixes: if the first k+1 positions of a list
all satisfy the bound, the count of elements below the bound is at least
k+1. -/
theorem countP_of_prefixBound (v : ℚ) :
    ∀ (s : List ℚ) (k : ℕ), k < s.length → (∀ i, i ≤ k → s.getD i 0 ≤ v) →
      k + 1 ≤ s.countP (fun x => x ≤ v) := by
  intro s
  induction s with
  | nil => intro k hk; simp at hk
  | cons a t ih =>
    intro k hk h
    have ha : a ≤ v := by simpa using h 0 (Nat.zero_le k)
    have hcount : (a :: t).countP (fun x => x ≤ v) = t.countP (fun x => x ≤ v) + 1 := by
      simp [List.countP_cons, ha]
    match k with
    | 0 => omega
    | k' + 1 =>
      have hk' : k' < t.length := by simpa using hk
      have h' : ∀ i, i ≤ k' → t.getD i 0 ≤ v := by
        intro i hi
        simpa using h (i + 1) (by omega)
      have := ih k' hk' h'
      omega

/-- At least half (rounded up) of the elements of a list are at most its
numpy median. -/
theorem npMedian_count_le (l : List ℚ) (v : ℚ) (hv : npMedian l = some v) :
    (l.length + 1) / 2 ≤ l.countP (fun x => x ≤ v) := by
  have hperm : l.countP (fun x => x ≤ v) = (sortedList l).countP (fun x => x ≤ v) :=
    ((List.perm_insertionSort (· ≤ ·) l).symm.countP_eq _)
  have hlen := sortedList_length l
  have hmono : ∀ i k : ℕ, i ≤ k → k < (sortedList l).length →
      (sortedList l).getD i 0 ≤ (sortedList l).getD k 0 := by
    intro i k hik hk
    have hi : i < (sortedList l).length := lt_of_le_of_lt hik hk
    rw [List.getD_eq_getElem _ _ hi, List.getD_eq_getElem _ _ hk]
    exact (sortedList_sorted l).rel_get_of_le (by exact hik)
  unfold npMedian at hv
  split_ifs at hv with h0 h1
  · -- odd length
    simp only [Option.some.injEq] at hv
    have hk : (l.length - 1) / 2 < (sortedList l).length := by omega
    have := countP_of_prefixBound v (sortedList l) ((l.length - 1) / 2) hk
      (fun i hi => hv ▸ hmono i ((l.length - 1) / 2) hi hk)
    omega
  · -- even length
    simp only [Option.some.injEq] at hv
    have hk1 : l.length / 2 - 1 < (sortedList l).length := by omega
    have hk2 : l.length / 2 < (sortedList l).length := by omega
    have hle : (sortedList l).getD (l.length / 2 - 1) 0 ≤ (sortedList l).getD (l.length / 2) 0 :=
      hmono _ _ (by omega) hk2
    have hmid : (sortedList l).getD (l.length / 2 - 1) 0 ≤ v := by
      rw [← hv]; linarith
    have := countP_of_prefixBound v (sortedList l) (l.length / 2 - 1) hk1
      (fun i hi => le_trans (hmono i (l.length / 2 - 1) hi hk1) hmid)
    omega

/-!
Embedding of cc_uniluminated_outliers (src/jwst.py lines 13-57).

The function replaces masked-out pixels by NaN, takes per-column
nanmedians and nan median-absolute deviations, flags every pixel whose
absolute deviation from its column median exceeds nsigma times the scaled
MAD, and multiplies the resulting 0/1 outlier mask into the input mask.
A column with no surviving pixel yields NaN statistics, and numpy
comparisons against NaN are false, so no pixel of such a column is
flagged; this is embedded by Option-valued medians with a false flag when
a statistic is undefined.
-/

/-- Values of column j that survive the mask (the entries nanmedian sees
after mask-zero pixels are replaced by NaN). -/
def maskedColList (m : ℕ) (data mask : ℕ → ℕ → ℚ) (j : ℕ) : List ℚ :=
  ((List.range m).filter (fun i => mask i j ≠ 0)).map (fun i => data i j)

/-- Per-column nanmedian of the masked data, none when the column has no
surviving pixel (numpy produces NaN there). -/
def nanColMedian (m : ℕ) (data mask : ℕ → ℕ → ℚ) (j : ℕ) : Option ℚ :=
  npMedian (maskedColList m data mask j)

/-- Per-column nan median absolute deviation of the masked data about the
column nanmedian, none when the column median itself is undefined. -/
def nanColMad (m : ℕ) (data mask : ℕ → ℕ → ℚ) (j : ℕ) : Option ℚ :=
  (nanColMedian m data mask j).bind
    (fun med => npMedian ((maskedColList m data mask j).map (fun v => |v - med|)))

/-- Outlier test of cc_uniluminated_outliers at pixel (i, j): true when
the absolute deviation from the column median exceeds
nsigma * mad * 1.4826, false whenever a column statistic is NaN. -/
def ccOutlierFlag (m : ℕ) (data mask : ℕ → ℕ → ℚ) (nsigma : ℚ) (i j : ℕ) : Bool :=
  match nanColMedian m data mask j, nanColMad m data mask j with
  | some med, some mad => decide (|data i j - med| > nsigma * mad * (14826 / 10000))
  | _, _ => false

/-- Embedding of cc_uniluminated_outliers: the input mask multiplied by
the 0/1 outlier mask. -/
def cc_uniluminated_outliers (m : ℕ) (data mask : ℕ → ℕ → ℚ) (nsigma : ℚ) :
    ℕ → ℕ → ℚ :=
  fun i j => mask i j * (if ccOutlierFlag m data mask nsigma i j then 0 else 1)

/-!
Embedding of get_roeba (src/jwst.py lines 59-97).

The function replaces masked-out pixels by NaN, writes the scalar
nanmedian of the even-indexed rows on the even rows and that of the
odd-indexed rows on the odd rows, and then adds the per-column nanmedian
taken over all rows.  Each output pixel is therefore the parity median of
its row parity plus the overall column median, in Option form since an
empty parity slice or column gives NaN.
-/

/-- Masked values on the rows of parity par (par = 0 for the even slice,
par = 1 for the odd slice), the entries the scalar nanmedian sees. -/
def parityRowsList (m n : ℕ) (data mask : ℕ → ℕ → ℚ) (par : ℕ) : List ℚ :=
  ((List.range m).filter (fun i => i % 2 = par)).flatMap
    (fun i => ((List.range n).filter (fun j => mask i j ≠ 0)).map (fun j => data i j))

/-- Embedding of get_roeba: value of the ROEBA model at pixel (r, c). -/
def get_roeba (m n : ℕ) (data mask : ℕ → ℕ → ℚ) : ℕ → ℕ → Option ℚ :=
  fun r c =>
    match npMedian (parityRowsList m n data mask (r % 2)), nanColMedian m data mask c with
    | some p, some q => some (p + q)
    | _, _ => none

/-!
Embedding of get_uniluminated_mask (src/jwst.py lines 265-306).

The function takes the plain per-column median, and per column computes
the MAD of the residuals about their own median, scales it by 1.4826 and
flags as illuminated (0) exactly the pixels strictly above
column median + nsigma * scaled MAD; all other pixels stay 1.
-/

/-- Plain per-column median over all rows (np.median, no mask). -/
def colMedianAll (m : ℕ) (data : ℕ → ℕ → ℚ) (c : ℕ) : Option ℚ :=
  npMedian ((List.range m).map (fun r => data r c))

/-- Embedding of get_uniluminated_mask: 1 on uniluminated pixels, 0 on
pixels strictly above the one-sided column threshold. -/
def get_uniluminated_mask (m : ℕ) (data : ℕ → ℕ → ℚ) (nsigma : ℚ) : ℕ → ℕ → ℚ :=
  fun r c =>
    match colMedianAll m data c with
    | none => 1
    | some med =>
      match npMedian ((List.range m).map (fun i => data i c - med)) with
      | none => 1
      | some rm =>
        match npMedian ((List.range m).map (fun i => |data i c - med - rm|)) with
        | none => 1
        | some mad => if data r c > med + nsigma * (mad * (14826 / 10000)) then 0 else 1

/-!
Embedding of get_loom (src/jwst.py lines 100-198).

The function assembles a (ncolumns + 2) x (ncolumns + 2) matrix A and
right-hand side b from masked sufficient statistics and solves the system
with scipy lsmr.  Row 0 is written by A[0,0], A[0,1], A[0,2:] = nO, 0,
nodd_j with b[0] the masked data sum over the odd row slice; row 1
likewise with nE, neven_j and the even slice; A[2:,0] and A[2:,1] receive
nodd_j and neven_j, and a loop writes the diagonal nrows_j[j] and the
masked column sums b[j+2].  The model adds x[0] on the odd rows, x[1] on
the even rows and x[j+2] on column j, and the parameter vector is
returned exactly when return_parameters is set.  The lsmr call itself is
not part of src, so the solver is a parameter of the embedding; the
minimum-norm property the spec demands of it is IsMinNormLS below.
-/

/-- Number of masked-in pixels of column j (nrows_j in the source), as the
sum of mask entries over the rows. -/
def nrows_j (m : ℕ) (mask : ℕ → ℕ → ℚ) (j : ℕ) : ℚ :=
  ∑ i ∈ Finset.range m, mask i j

/-- Sum of mask entries of column j over the even row slice mask[::2]
(neven_j in the source). -/
def neven_j (m : ℕ) (mask : ℕ → ℕ → ℚ) (j : ℕ) : ℚ :=
  ∑ i ∈ Finset.range m, if i % 2 = 0 then mask i j else 0

/-- Sum of mask entries of column j over the odd row slice mask[1::2]
(nodd_j in the source). -/
def nodd_j (m : ℕ) (mask : ℕ → ℕ → ℚ) (j : ℕ) : ℚ :=
  ∑ i ∈ Finset.range m, if i % 2 = 1 then mask i j else 0

/-- Total mask sum over the even rows (nE in the source, the sum of the
even entries of the per-row sums ncols_i). -/
def nE_stat (m n : ℕ) (mask : ℕ → ℕ → ℚ) : ℚ :=
  ∑ i ∈ Finset.range m, if i % 2 = 0 then ∑ j ∈ Finset.range n, mask i j else 0

/-- Total mask sum over the odd rows (nO in the source). -/
def nO_stat (m n : ℕ) (mask : ℕ → ℕ → ℚ) : ℚ :=
  ∑ i ∈ Finset.range m, if i % 2 = 1 then ∑ j ∈ Finset.range n, mask i j else 0

/-- Masked data sum over the odd row slice, np.sum(mask[1::2] * data[1::2]). -/
def oddMaskedSum (m n : ℕ) (data mask : ℕ → ℕ → ℚ) : ℚ :=
  ∑ i ∈ Finset.range m, if i % 2 = 1 then ∑ j ∈ Finset.range n, mask i j * data i j else 0

/-- Masked data sum over the even row slice, np.sum(mask[::2] * data[::2]). -/
def evenMaskedSum (m n : ℕ) (data mask : ℕ → ℕ → ℚ) : ℚ :=
  ∑ i ∈ Finset.range m, if i % 2 = 0 then ∑ j ∈ Finset.range n, mask i j * data i j else 0

/-- Masked data sum of column j, np.sum(mask[:, j] * data[:, j]). -/
def colMaskedSum (m : ℕ) (data mask : ℕ → ℕ → ℚ) (j : ℕ) : ℚ :=
  ∑ i ∈ Finset.range m, mask i j * data i j

/-- The LOOM normal-equations matrix built by get_loom, entry (p, q) of
the (n + 2) x (n + 2) system.  Row 0 holds nO, 0, nodd_j; row 1 holds 0,
nE, neven_j; the remaining rows hold nodd_j and neven_j in their first two
entries and nrows_j[p-2] on the diagonal. -/
def loomA (m n : ℕ) (mask : ℕ → ℕ → ℚ) (p q : ℕ) : ℚ :=
  if p = 0 then
    if q = 0 then nO_stat m n mask
    else if q = 1 then 0
    else nodd_j m mask (q - 2)
  else if p = 1 then
    if q = 0 then 0
    else if q = 1 then nE_stat m n mask
    else neven_j m mask (q - 2)
  else
    if q = 0 then nodd_j m mask (p - 2)
    else if q = 1 then neven_j m mask (p - 2)
    else if q = p then nrows_j m mask (p - 2)
    else 0

/-- The LOOM right-hand side built by get_loom: masked odd-slice sum,
masked even-slice sum, then the masked column sums. -/
def loomB (m n : ℕ) (data mask : ℕ → ℕ → ℚ) (p : ℕ) : ℚ :=
  if p = 0 then oddMaskedSum m n data mask
  else if p = 1 then evenMaskedSum m n data mask
  else colMaskedSum m data mask (p - 2)

/-- Embedding of get_loom, parametric in the linear solver standing for
scipy lsmr: the correction model together with the optionally returned
parameter vector. -/
def get_loom (solve : (ℕ → ℕ → ℚ) → (ℕ → ℚ) → (ℕ → ℚ)) (m n : ℕ)
    (data mask : ℕ → ℕ → ℚ) (return_parameters : Bool) :
    (ℕ → ℕ → ℚ) × Option (ℕ → ℚ) :=
  let x := solve (loomA m n mask) (loomB m n data mask)
  (fun r c => (if r % 2 = 1 then x 0 else x 1) + x (c + 2),
   if return_parameters then some x else none)

/-- Residual sum of squares of the N x N system (A, b) at x. -/
def lsResid (N : ℕ) (A : ℕ → ℕ → ℚ) (b : ℕ → ℚ) (x : ℕ → ℚ) : ℚ :=
  ∑ p ∈ Finset.range N, ((∑ q ∈ Finset.range N, A p q * x q) - b p) ^ 2

/-- Squared euclidean norm of the first N components of x. -/
def vecNormSq (N : ℕ) (x : ℕ → ℚ) : ℚ :=
  ∑ q ∈ Finset.range N, x q ^ 2

/-- Modelled from the spec: the source solves the LOOM system with
scipy.sparse.linalg.lsmr, which is not part of src; section 4.6 of the
spec requires that the solver tolerate singular systems and return the
minimum-norm least-squares solution.  IsMinNormLS N A b x says x
minimises the residual of the N x N system (A, b) and, among all residual
minimisers, has minimal squared norm. -/
def IsMinNormLS (N : ℕ) (A : ℕ → ℕ → ℚ) (b : ℕ → ℚ) (x : ℕ → ℚ) : Prop :=
  (∀ y, lsResid N A b x ≤ lsResid N A b y) ∧
  (∀ y, lsResid N A b y ≤ lsResid N A b x → vecNormSq N x ≤ vecNormSq N y)

/-!
Embedding of get_last_minus_first (src/jwst.py lines 211-263).

For each integration the function subtracts from the selected last and
first groups their own scalar nanmedian over all pixels and differences
the results; the second output is the per-pixel nanmedian of the slope
array across integrations.  Defaults are group 0 and ngroups - 1.  No
relation between min_group and max_group is checked; an index at or
beyond the group axis raises a numpy IndexError inside the loop (hence
only when there is at least one integration), embedded as none.
-/

/-- All pixel values of one frame, the entries np.nanmedian sees when
applied to a whole 2-D group. -/
def framePixList (rows cols : ℕ) (frame : ℕ → ℕ → ℚ) : List ℚ :=
  (List.range rows).flatMap (fun r => (List.range cols).map (fun c => frame r c))

/-- Scalar nanmedian of a whole frame. -/
def groupMedian (rows cols : ℕ) (frame : ℕ → ℕ → ℚ) : Option ℚ :=
  npMedian (framePixList rows cols frame)

/-- Per-integration slope array of get_last_minus_first: each selected
group minus its own scalar median, differenced, for resolved group
indices mn and mx. -/
def lmfFun (rows cols : ℕ) (data : ℕ → ℕ → ℕ → ℕ → ℚ) (mn mx : ℕ) :
    ℕ → ℕ → ℕ → Option ℚ :=
  fun i r c =>
    match groupMedian rows cols (data i mx), groupMedian rows cols (data i mn) with
    | some medLast, some medFirst =>
      some ((data i mx r c - medLast) - (data i mn r c - medFirst))
    | _, _ => none

/-- Pixel-wise nanmedian of the slope array across integrations. -/
def lmfMedianFun (nints rows cols : ℕ) (data : ℕ → ℕ → ℕ → ℕ → ℚ) (mn mx : ℕ) :
    ℕ → ℕ → Option ℚ :=
  fun r c => npMedian ((List.range nints).filterMap
    (fun i => lmfFun rows cols data mn mx i r c))

/-- Embedding of get_last_minus_first: per-integration median-aligned
group difference and the per-pixel median of it across integrations, or
none when a group index is out of range and the loop body runs. -/
def get_last_minus_first (nints ngroups rows cols : ℕ) (data : ℕ → ℕ → ℕ → ℕ → ℚ)
    (min_group max_group : Option ℕ) :
    Option ((ℕ → ℕ → ℕ → Option ℚ) × (ℕ → ℕ → Option ℚ)) :=
  let mx := max_group.getD (ngroups - 1)
  let mn := min_group.getD 0
  if 0 < nints ∧ (ngroups ≤ mx ∨ ngroups ≤ mn) then none
  else some (lmfFun rows cols data mn mx, lmfMedianFun nints rows cols data mn mx)

/-!
Embedding of the slope diagnostics of the stage1 correction driver
(src/jwst.py lines 541-632, ROEBA path).

When stage1 computes the correction afresh it subtracts, for every
integration i and group g, the model built from the current frame and the
fixed base mask, and then records
lmf_after[i] = refpix.data[i, max_group] - refpix.data[i, min_group]
(lines 588 and 616), a plain group difference without the per-group
median removal of get_last_minus_first.  Each frame is corrected from its
own uncorrected value and the fixed mask, so the corrected ramp is the
original data minus the per-frame model.
-/

/-- Corrected ramp of the stage1 ROEBA path: every (integration, group)
frame minus its ROEBA model, none where the model is NaN. -/
def stage1_roeba_corrected (m n : ℕ) (data : ℕ → ℕ → ℕ → ℕ → ℚ)
    (mask : ℕ → ℕ → ℚ) : ℕ → ℕ → ℕ → ℕ → Option ℚ :=
  fun i g r c => (get_roeba m n (data i g) mask r c).map (fun v => data i g r c - v)

/-- After-correction slope recorded by stage1: the plain difference of the
max_group and min_group corrected frames of each integration. -/
def stage1_lmf_after (corr : ℕ → ℕ → ℕ → ℕ → Option ℚ) (mx mn : ℕ) :
    ℕ → ℕ → ℕ → Option ℚ :=
  fun i r c =>
    match corr i mx r c, corr i mn r c with
    | some a, some b => some (a - b)
    | _, _ => none

/-!
Quantities named by the specification for the LOOM system, written as
masked-pixel counts and masked-value sums of a 0/1 mask.  These are the
statements the normal-equations entries are compared against.
-/

/-- Number of masked-in pixels on the odd rows of a 0/1 mask. -/
def specOddCount (m n : ℕ) (mask : ℕ → ℕ → ℚ) : ℕ :=
  ((Finset.range m ×ˢ Finset.range n).filter
    (fun p => p.1 % 2 = 1 ∧ mask p.1 p.2 = 1)).card

/-- Number of masked-in pixels on the even rows of a 0/1 mask. -/
def specEvenCount (m n : ℕ) (mask : ℕ → ℕ → ℚ) : ℕ :=
  ((Finset.range m ×ˢ Finset.range n).filter
    (fun p => p.1 % 2 = 0 ∧ mask p.1 p.2 = 1)).card

/-- Number of masked-in pixels of column j lying on odd rows. -/
def specOddColCount (m : ℕ) (mask : ℕ → ℕ → ℚ) (j : ℕ) : ℕ :=
  ((Finset.range m).filter (fun i => i % 2 = 1 ∧ mask i j = 1)).card

/-- Number of masked-in pixels of column j lying on even rows. -/
def specEvenColCount (m : ℕ) (mask : ℕ → ℕ → ℚ) (j : ℕ) : ℕ :=
  ((Finset.range m).filter (fun i => i % 2 = 0 ∧ mask i j = 1)).card

/-- Number of masked-in pixels of column j. -/
def specColCount (m : ℕ) (mask : ℕ → ℕ → ℚ) (j : ℕ) : ℕ :=
  ((Finset.range m).filter (fun i => mask i j = 1)).card

/-- Sum of the masked-in pixel values on the odd rows. -/
def specOddSum (m n : ℕ) (data mask : ℕ → ℕ → ℚ) : ℚ :=
  ∑ i ∈ Finset.range m, ∑ j ∈ Finset.range n,
    if i % 2 = 1 ∧ mask i j = 1 then data i j else 0

/-- Sum of the masked-in pixel values on the even rows. -/
def specEvenSum (m n : ℕ) (data mask : ℕ → ℕ → ℚ) : ℚ :=
  ∑ i ∈ Finset.range m, ∑ j ∈ Finset.range n,
    if i % 2 = 0 ∧ mask i j = 1 then data i j else 0

/-- Sum of the masked-in pixel values of column j. -/
def specColSum (m : ℕ) (data mask : ℕ → ℕ → ℚ) (j : ℕ) : ℚ :=
  ∑ i ∈ Finset.range m, if mask i j = 1 then data i j else 0

/-!
Helper lemmas relating sums of a 0/1 mask to masked-pixel counts and
masked-value sums.
-/

theorem sum_mask_card (m : ℕ) (w : ℕ → ℚ) (hw : ∀ i, w i = 0 ∨ w i = 1) :
    ∑ i ∈ Finset.range m, w i
      = (((Finset.range m).filter (fun i => w i = 1)).card : ℚ) := by
  rw [Finset.card_filter]
  push_cast
  refine Finset.sum_congr rfl ?_
  intro i _
  rcases hw i with h | h <;> simp [h]

theorem sum_if_mask_card (m : ℕ) (w : ℕ → ℚ) (c : ℕ → Prop) [DecidablePred c]
    (hw : ∀ i, w i = 0 ∨ w i = 1) :
    ∑ i ∈ Finset.range m, (if c i then w i else 0)
      = (((Finset.range m).filter (fun i => c i ∧ w i = 1)).card : ℚ) := by
  rw [Finset.card_filter]
  push_cast
  refine Finset.sum_congr rfl ?_
  intro i _
  rcases hw i with h | h <;> by_cases hc : c i <;> simp [h, hc]

theorem sum_mask_mul (m : ℕ) (w d : ℕ → ℚ) (hw : ∀ i, w i = 0 ∨ w i = 1) :
    ∑ i ∈ Finset.range m, w i * d i
      = ∑ i ∈ Finset.range m, if w i = 1 then d i else 0 := by
  refine Finset.sum_congr rfl ?_
  intro i _
  rcases hw i with h | h <;> simp [h]

theorem twoDim_count (m n : ℕ) (mask : ℕ → ℕ → ℚ) (c : ℕ → Prop) [DecidablePred c]
    (hmask : ∀ i j, mask i j = 0 ∨ mask i j = 1) :
    ∑ i ∈ Finset.range m, (if c i then ∑ j ∈ Finset.range n, mask i j else 0)
      = (((Finset.range m ×ˢ Finset.range n).filter
          (fun p => c p.1 ∧ mask p.1 p.2 = 1)).card : ℚ) := by
  rw [Finset.card_filter]
  push_cast
  rw [Finset.sum_product]
  refine Finset.sum_congr rfl ?_
  intro i _
  by_cases hc : c i
  · simp only [hc, if_true, true_and]
    refine Finset.sum_congr rfl ?_
    intro j _
    rcases hmask i j with h | h <;> simp [h]
  · simp [hc]

theorem twoDim_if_sum (m n : ℕ) (data mask : ℕ → ℕ → ℚ) (c : ℕ → Prop) [DecidablePred c]
    (hmask : ∀ i j, mask i j = 0 ∨ mask i j = 1) :
    ∑ i ∈ Finset.range m, (if c i then ∑ j ∈ Finset.range n, mask i j * data i j else 0)
      = ∑ i ∈ Finset.range m, ∑ j ∈ Finset.range n,
          if c i ∧ mask i j = 1 then data i j else 0 := by
  refine Finset.sum_congr rfl ?_
  intro i _
  by_cases hc : c i
  · simp only [hc, if_true, true_and]
    refine Finset.sum_congr rfl ?_
    intro j _
    rcases hmask i j with h | h <;> simp [h]
  · simp [hc]

/-- Statement of claim C1: the normal-equations system built by get_loom
agrees entry by entry with the sufficient statistics the specification
names, the model broadcasts the solver output, and the parameter vector
is returned exactly when the flag is set. -/
def LoomSpecStatement (m n : ℕ) (data mask : ℕ → ℕ → ℚ) : Prop :=
  loomA m n mask 0 0 = (specOddCount m n mask : ℚ) ∧
  loomA m n mask 0 1 = 0 ∧
  (∀ j, j < n → loomA m n mask 0 (j + 2) = (specOddColCount m mask j : ℚ)) ∧
  loomB m n data mask 0 = specOddSum m n data mask ∧
  loomA m n mask 1 0 = 0 ∧
  loomA m n mask 1 1 = (specEvenCount m n mask : ℚ) ∧
  (∀ j, j < n → loomA m n mask 1 (j + 2) = (specEvenColCount m mask j : ℚ)) ∧
  loomB m n data mask 1 = specEvenSum m n data mask ∧
  (∀ j, j < n →
    loomA m n mask (j + 2) 0 = (specOddColCount m mask j : ℚ) ∧
    loomA m n mask (j + 2) 1 = (specEvenColCount m mask j : ℚ) ∧
    loomA m n mask (j + 2) (j + 2) = (specColCount m mask j : ℚ) ∧
    (∀ k, k < n → k ≠ j → loomA m n mask (j + 2) (k + 2) = 0) ∧
    loomB m n data mask (j + 2) = specColSum m data mask j) ∧
  (∀ solve : (ℕ → ℕ → ℚ) → (ℕ → ℚ) → (ℕ → ℚ), ∀ rp : Bool, ∀ r c : ℕ,
    (get_loom solve m n data mask rp).1 r c =
      (if r % 2 = 1 then solve (loomA m n mask) (loomB m n data mask) 0
       else solve (loomA m n mask) (loomB m n data mask) 1)
      + solve (loomA m n mask) (loomB m n data mask) (c + 2)) ∧
  (∀ solve : (ℕ → ℕ → ℚ) → (ℕ → ℚ) → (ℕ → ℚ),
    (get_loom solve m n data mask true).2 =
      some (solve (loomA m n mask) (loomB m n data mask)) ∧
    (get_loom solve m n data mask false).2 = none)

/-- C1: for every frame and congruent 0/1 mask, get_loom builds the
(columns + 2) x (columns + 2) normal-equations system from the masked
sufficient statistics exactly as specified, the returned model is the
solution broadcast over parities and columns, and the parameter vector is
additionally returned exactly when the flag is set. -/
theorem loom_system_spec (m n : ℕ) (data mask : ℕ → ℕ → ℚ)
    (hmask : ∀ i j, mask i j = 0 ∨ mask i j = 1) :
    LoomSpecStatement m n data mask := by
  have hmaskcol : ∀ j, ∀ i, mask i j = 0 ∨ mask i j = 1 := fun j i => hmask i j
  refine ⟨?_, ?_, ?_, ?_, ?_, ?_, ?_, ?_, ?_, ?_, ?_⟩
  · show nO_stat m n mask = _
    exact twoDim_count m n mask (fun i => i % 2 = 1) hmask
  · rfl
  · intro j hj
    show nodd_j m mask (j + 2 - 2) = _
    rw [Nat.add_sub_cancel]
    exact sum_if_mask_card m (fun i => mask i j) (fun i => i % 2 = 1) (hmaskcol j)
  · show oddMaskedSum m n data mask = _
    exact twoDim_if_sum m n data mask (fun i => i % 2 = 1) hmask
  · rfl
  · show nE_stat m n mask = _
    exact twoDim_count m n mask (fun i => i % 2 = 0) hmask
  · intro j hj
    show neven_j m mask (j + 2 - 2) = _
    rw [Nat.add_sub_cancel]
    exact sum_if_mask_card m (fun i => mask i j) (fun i => i % 2 = 0) (hmaskcol j)
  · show evenMaskedSum m n data mask = _
    exact twoDim_if_sum m n data mask (fun i => i % 2 = 0) hmask
  · intro j hj
    refine ⟨?_, ?_, ?_, ?_, ?_⟩
    · show nodd_j m mask (j + 2 - 2) = _
      rw [Nat.add_sub_cancel]
      exact sum_if_mask_card m (fun i => mask i j) (fun i => i % 2 = 1) (hmaskcol j)
    · show neven_j m mask (j + 2 - 2) = _
      rw [Nat.add_sub_cancel]
      exact sum_if_mask_card m (fun i => mask i j) (fun i => i % 2 = 0) (hmaskcol j)
    · have h2 : ¬(j + 2 = 0) := by omega
      have h3 : ¬(j + 2 = 1) := by omega
      simp only [loomA, h2, h3, if_false, if_true, if_pos rfl]
      rw [Nat.add_sub_cancel]
      show nrows_j m mask j = _
      exact sum_mask_card m (fun i => mask i j) (hmaskcol j)
    · intro k hk hkj
      have h2 : ¬(j + 2 = 0) := by omega
      have h3 : ¬(j + 2 = 1) := by omega
      have h4 : ¬(k + 2 = 0) := by omega
      have h5 : ¬(k + 2 = 1) := by omega
      have h6 : ¬(k + 2 = j + 2) := by omega
      simp [loomA, h2, h3, h4, h5, h6]
    · show colMaskedSum m data mask (j + 2 - 2) = _
      rw [Nat.add_sub_cancel]
      exact sum_mask_mul m (fun i => mask i j) (fun i => data i j) (hmaskcol j)
  · intro solve rp r c
    rfl
  · intro solve
    exact ⟨rfl, rfl⟩

/-- Concrete 2 x 1 frame used to instantiate the LOOM system theorem. -/
def w1data : ℕ → ℕ → ℚ := fun r c => (r : ℚ) + c

/-- Concrete 0/1 mask congruent to w1data. -/
def w1mask : ℕ → ℕ → ℚ := fun r c => if r = c then 0 else 1

/-- Witness for C1 at the concrete 2 x 1 instance. -/
theorem loom_system_spec_witness :
    (∀ i j, w1mask i j = 0 ∨ w1mask i j = 1) ∧ LoomSpecStatement 2 1 w1data w1mask := by
  have hw : ∀ i j, w1mask i j = 0 ∨ w1mask i j = 1 := by
    intro i j
    unfold w1mask
    split_ifs <;> simp
  exact ⟨hw, loom_system_spec 2 1 w1data w1mask hw⟩

/-- C3: refine_background_mask (cc_uniluminated_outliers) is tightening
only: for a 0/1 input mask the output is pointwise at most the input,
zero entries stay zero, and each entry is either kept or turned to 0. -/
theorem cc_outliers_tightening (m : ℕ) (data mask : ℕ → ℕ → ℚ) (nsigma : ℚ)
    (hmask : ∀ i j, mask i j = 0 ∨ mask i j = 1) :
    ∀ i j, cc_uniluminated_outliers m data mask nsigma i j ≤ mask i j ∧
      (mask i j = 0 → cc_uniluminated_outliers m data mask nsigma i j = 0) ∧
      (cc_uniluminated_outliers m data mask nsigma i j = mask i j ∨
       cc_uniluminated_outliers m data mask nsigma i j = 0) := by
  intro i j
  unfold cc_uniluminated_outliers
  rcases hmask i j with h | h <;>
    by_cases hf : ccOutlierFlag m data mask nsigma i j = true <;>
      simp [h, hf]

/-- Concrete 0/1 mask for the C3 witness. -/
def w3mask : ℕ → ℕ → ℚ := fun i _ => if i = 0 then 1 else 0

/-- Concrete frame for the C3 witness. -/
def w3data : ℕ → ℕ → ℚ := fun i j => (i : ℚ) * j

/-- Witness for C3 at a concrete 2-row instance. -/
theorem cc_outliers_tightening_witness :
    (∀ i j, w3mask i j = 0 ∨ w3mask i j = 1) ∧
    (∀ i j, cc_uniluminated_outliers 2 w3data w3mask 5 i j ≤ w3mask i j ∧
      (w3mask i j = 0 → cc_uniluminated_outliers 2 w3data w3mask 5 i j = 0) ∧
      (cc_uniluminated_outliers 2 w3data w3mask 5 i j = w3mask i j ∨
       cc_uniluminated_outliers 2 w3data w3mask 5 i j = 0)) := by
  have hw : ∀ i j, w3mask i j = 0 ∨ w3mask i j = 1 := by
    intro i j
    unfold w3mask
    split_ifs <;> simp
  exact ⟨hw, cc_outliers_tightening 2 w3data w3mask 5 hw⟩

/-- C5: get_uniluminated_mask flags pixel (r, c) as illuminated (0) if
and only if its value strictly exceeds the column median plus nsigma
times the scaled MAD of the column residuals, and leaves every other
pixel at 1 (one-sided test). -/
theorem uniluminated_mask_one_sided (m : ℕ) (data : ℕ → ℕ → ℚ) (nsigma : ℚ) (r c : ℕ)
    (hr : r < m) :
    ∃ med rm mad,
      colMedianAll m data c = some med ∧
      npMedian ((List.range m).map (fun i => data i c - med)) = some rm ∧
      npMedian ((List.range m).map (fun i => |data i c - med - rm|)) = some mad ∧
      (get_uniluminated_mask m data nsigma r c = 0 ↔
        data r c > med + nsigma * (mad * (14826 / 10000))) ∧
      (data r c ≤ med + nsigma * (mad * (14826 / 10000)) →
        get_uniluminated_mask m data nsigma r c = 1) := by
  have hm : 0 < m := by omega
  have hne1 : ((List.range m).map (fun i => data i c)) ≠ [] :=
    List.length_pos.mp (by simpa using hm)
  obtain ⟨med, hmed0⟩ := npMedian_of_ne_nil _ hne1
  have hmed : colMedianAll m data c = some med := hmed0
  have hne2 : ((List.range m).map (fun i => data i c - med)) ≠ [] :=
    List.length_pos.mp (by simpa using hm)
  obtain ⟨rm, hrm⟩ := npMedian_of_ne_nil _ hne2
  have hne3 : ((List.range m).map (fun i => |data i c - med - rm|)) ≠ [] :=
    List.length_pos.mp (by simpa using hm)
  obtain ⟨mad, hmad⟩ := npMedian_of_ne_nil _ hne3
  refine ⟨med, rm, mad, hmed, hrm, hmad, ?_, ?_⟩
  · simp only [get_uniluminated_mask, hmed, hrm, hmad]
    by_cases hgt : data r c > med + nsigma * (mad * (14826 / 10000)) <;> simp [hgt]
  · intro hle
    have hgt : ¬ data r c > med + nsigma * (mad * (14826 / 10000)) := not_lt.mpr hle
    simp only [get_uniluminated_mask, hmed, hrm, hmad, hgt, if_false]

/-- Concrete frame for the C5 witness. -/
def w5data : ℕ → ℕ → ℚ := fun i _ => if i = 0 then 0 else 1

/-- Witness for C5 at a concrete 2-row instance. -/
theorem uniluminated_mask_one_sided_witness :
    (1 < 2) ∧
    (∃ med rm mad,
      colMedianAll 2 w5data 0 = some med ∧
      npMedian ((List.range 2).map (fun i => w5data i 0 - med)) = some rm ∧
      npMedian ((List.range 2).map (fun i => |w5data i 0 - med - rm|)) = some mad ∧
      (get_uniluminated_mask 2 w5data 3 1 0 = 0 ↔
        w5data 1 0 > med + 3 * (mad * (14826 / 10000))) ∧
      (w5data 1 0 ≤ med + 3 * (mad * (14826 / 10000)) →
        get_uniluminated_mask 2 w5data 3 1 0 = 1)) :=
  ⟨by norm_num, uniluminated_mask_one_sided 2 w5data 3 1 0 (by norm_num)⟩

/-- C10: for nonnegative nsigma, get_uniluminated_mask keeps every pixel
at or below its column median at 1, so each column of the base mask keeps
at least half of its rows (rounded up) at 1, giving the per-column
non-emptiness invariant needed by column statistics. -/
theorem base_mask_majority (m : ℕ) (data : ℕ → ℕ → ℚ) (nsigma : ℚ) (c : ℕ)
    (hn : 0 ≤ nsigma) :
    (∀ r, r < m → ∀ med, colMedianAll m data c = some med → data r c ≤ med →
      get_uniluminated_mask m data nsigma r c = 1) ∧
    (m + 1) / 2 ≤ (List.range m).countP
      (fun r => get_uniluminated_mask m data nsigma r c = 1) := by
  rcases Nat.eq_zero_or_pos m with hm | hm
  · subst hm
    constructor
    · intro r hr
      exact absurd hr (Nat.not_lt_zero r)
    · simp
  · have hne1 : ((List.range m).map (fun i => data i c)) ≠ [] :=
      List.length_pos.mp (by simpa using hm)
    obtain ⟨med, hmed0⟩ := npMedian_of_ne_nil _ hne1
    have hmed : colMedianAll m data c = some med := hmed0
    have hne2 : ((List.range m).map (fun i => data i c - med)) ≠ [] :=
      List.length_pos.mp (by simpa using hm)
    obtain ⟨rm, hrm⟩ := npMedian_of_ne_nil _ hne2
    have hne3 : ((List.range m).map (fun i => |data i c - med - rm|)) ≠ [] :=
      List.length_pos.mp (by simpa using hm)
    obtain ⟨mad, hmad⟩ := npMedian_of_ne_nil _ hne3
    have hmadnn : 0 ≤ mad := by
      refine npMedian_nonneg _ mad ?_ hmad
      intro x hx
      simp only [List.mem_map] at hx
      obtain ⟨i, _, rfl⟩ := hx
      exact abs_nonneg _
    have hone : ∀ r, data r c ≤ med → get_uniluminated_mask m data nsigma r c = 1 := by
      intro r hrle
      have hgt : ¬ data r c > med + nsigma * (mad * (14826 / 10000)) := by
        push_neg
        nlinarith
      simp only [get_uniluminated_mask, hmed, hrm, hmad, hgt, if_false]
    constructor
    · intro r _ med' hmed' hle
      have hmm : med = med' := by
        rw [hmed] at hmed'
        exact Option.some_inj.mp hmed'
      exact hone r (hmm ▸ hle)
    · have hcount1 : (m + 1) / 2
          ≤ ((List.range m).map (fun i => data i c)).countP (fun x => x ≤ med) := by
        have h := npMedian_count_le _ med hmed0
        simpa using h
      have hcount2 : ((List.range m).map (fun i => data i c)).countP (fun x => x ≤ med)
          = (List.range m).countP (fun r => data r c ≤ med) := by
        rw [List.countP_map]
        rfl
      have hmono : (List.range m).countP (fun r => data r c ≤ med)
          ≤ (List.range m).countP
              (fun r => get_uniluminated_mask m data nsigma r c = 1) := by
        apply List.countP_mono_left
        intro r _ hdec
        simp only [decide_eq_true_eq] at hdec ⊢
        exact hone r hdec
      omega

/-- Witness for C10 at a concrete 2-row instance. -/
theorem base_mask_majority_witness :
    (0 ≤ (3 : ℚ)) ∧
    ((∀ r, r < 2 → ∀ med, colMedianAll 2 w5data 0 = some med → w5data r 0 ≤ med →
        get_uniluminated_mask 2 w5data 3 r 0 = 1) ∧
      (2 + 1) / 2 ≤ (List.range 2).countP
        (fun r => get_uniluminated_mask 2 w5data 3 r 0 = 1)) :=
  ⟨by norm_num, base_mask_majority 2 w5data 3 0 (by norm_num)⟩

/-- Membership of a surviving pixel value in its parity slice list. -/
theorem parityRowsList_mem (m n : ℕ) (data mask : ℕ → ℕ → ℚ) (i j : ℕ)
    (hi : i < m) (hj : j < n) (hmne : mask i j ≠ 0) :
    data i j ∈ parityRowsList m n data mask (i % 2) := by
  unfold parityRowsList
  simp only [List.mem_flatMap, List.mem_filter, List.mem_map, List.mem_range]
  exact ⟨i, ⟨hi, by simp⟩, ⟨j, ⟨hj, by simp [hmne]⟩, rfl⟩⟩

/-- Membership of a surviving pixel value in its masked column list. -/
theorem maskedColList_mem (m : ℕ) (data mask : ℕ → ℕ → ℚ) (i j : ℕ)
    (hi : i < m) (hmne : mask i j ≠ 0) :
    data i j ∈ maskedColList m data mask j := by
  unfold maskedColList
  simp only [List.mem_map, List.mem_filter, List.mem_range]
  exact ⟨i, ⟨hi, by simp [hmne]⟩, rfl⟩

/-- C2: for a 0/1 mask with a surviving pixel on the odd rows, on the
even rows and in every column, every model pixel of get_roeba is the
parity median of its row parity plus the per-column median over all
masked rows, and consequently odd rows differ from even rows only by the
difference of the two parity scalars. -/
theorem roeba_parity_column_structure (m n : ℕ) (data mask : ℕ → ℕ → ℚ)
    (hmask : ∀ i j, mask i j = 0 ∨ mask i j = 1)
    (hodd : ∃ i j, i < m ∧ j < n ∧ i % 2 = 1 ∧ mask i j = 1)
    (heven : ∃ i j, i < m ∧ j < n ∧ i % 2 = 0 ∧ mask i j = 1)
    (hcols : ∀ c, c < n → ∃ i, i < m ∧ mask i c = 1) :
    ∃ o e, npMedian (parityRowsList m n data mask 1) = some o ∧
      npMedian (parityRowsList m n data mask 0) = some e ∧
      (∀ c, c < n → ∃ q, nanColMedian m data mask c = some q ∧
        ∀ r, get_roeba m n data mask r c = some ((if r % 2 = 1 then o else e) + q)) ∧
      (∀ r rE c, r % 2 = 1 → rE % 2 = 0 → c < n →
        ∃ a b, get_roeba m n data mask r c = some a ∧
          get_roeba m n data mask rE c = some b ∧ a - b = o - e) := by
  obtain ⟨i1, j1, hi1, hj1, hp1, hm1⟩ := hodd
  have hne1 : parityRowsList m n data mask 1 ≠ [] := by
    refine List.ne_nil_of_mem (a := data i1 j1) ?_
    have h := parityRowsList_mem m n data mask i1 j1 hi1 hj1 (by rw [hm1]; norm_num)
    rwa [hp1] at h
  obtain ⟨o, ho⟩ := npMedian_of_ne_nil _ hne1
  obtain ⟨i0, j0, hi0, hj0, hp0, hm0⟩ := heven
  have hne0 : parityRowsList m n data mask 0 ≠ [] := by
    refine List.ne_nil_of_mem (a := data i0 j0) ?_
    have h := parityRowsList_mem m n data mask i0 j0 hi0 hj0 (by rw [hm0]; norm_num)
    rwa [hp0] at h
  obtain ⟨e, he⟩ := npMedian_of_ne_nil _ hne0
  have hmid : ∀ c, c < n → ∃ q, nanColMedian m data mask c = some q ∧
      ∀ r, get_roeba m n data mask r c = some ((if r % 2 = 1 then o else e) + q) := by
    intro c hc
    obtain ⟨i2, hi2, hm2⟩ := hcols c hc
    have hnec : maskedColList m data mask c ≠ [] :=
      List.ne_nil_of_mem (maskedColList_mem m data mask i2 c hi2 (by rw [hm2]; norm_num))
    obtain ⟨q, hq⟩ := npMedian_of_ne_nil _ hnec
    have hq' : nanColMedian m data mask c = some q := hq
    refine ⟨q, hq', ?_⟩
    intro r
    rcases Nat.mod_two_eq_zero_or_one r with hr | hr <;>
      simp [get_roeba, hr, ho, he, hq']
  refine ⟨o, e, ho, he, hmid, ?_⟩
  intro r rE c hr hrE hc
  obtain ⟨q, hq, hval⟩ := hmid c hc
  refine ⟨o + q, e + q, ?_, ?_, by ring⟩
  · simpa [hr] using hval r
  · simpa [hrE] using hval rE

/-- All-ones mask (no pixel excluded). -/
def onesMask : ℕ → ℕ → ℚ := fun _ _ => 1

/-- Concrete 2 x 1 frame for the C2 witness. -/
def w2data : ℕ → ℕ → ℚ := fun i _ => (i : ℚ)

/-- Witness for C2 at a concrete 2 x 1 all-ones instance. -/
theorem roeba_parity_column_structure_witness :
    (∀ i j, onesMask i j = 0 ∨ onesMask i j = 1) ∧
    (∃ i j, i < 2 ∧ j < 1 ∧ i % 2 = 1 ∧ onesMask i j = 1) ∧
    (∃ i j, i < 2 ∧ j < 1 ∧ i % 2 = 0 ∧ onesMask i j = 1) ∧
    (∀ c, c < 1 → ∃ i, i < 2 ∧ onesMask i c = 1) ∧
    (∃ o e, npMedian (parityRowsList 2 1 w2data onesMask 1) = some o ∧
      npMedian (parityRowsList 2 1 w2data onesMask 0) = some e ∧
      (∀ c, c < 1 → ∃ q, nanColMedian 2 w2data onesMask c = some q ∧
        ∀ r, get_roeba 2 1 w2data onesMask r c = some ((if r % 2 = 1 then o else e) + q)) ∧
      (∀ r rE c, r % 2 = 1 → rE % 2 = 0 → c < 1 →
        ∃ a b, get_roeba 2 1 w2data onesMask r c = some a ∧
          get_roeba 2 1 w2data onesMask rE c = some b ∧ a - b = o - e)) := by
  refine ⟨fun i j => Or.inr rfl, ⟨1, 0, by norm_num [onesMask]⟩,
    ⟨0, 0, by norm_num [onesMask]⟩, fun c hc => ⟨0, by norm_num [onesMask]⟩, ?_⟩
  exact roeba_parity_column_structure 2 1 w2data onesMask (fun i j => Or.inr rfl)
    ⟨1, 0, by norm_num [onesMask]⟩ ⟨0, 0, by norm_num [onesMask]⟩
    (fun c hc => ⟨0, by norm_num [onesMask]⟩)

/-- Membership of a pixel value in the flattened frame list. -/
theorem framePixList_mem (rows cols : ℕ) (frame : ℕ → ℕ → ℚ) (r c : ℕ)
    (hr : r < rows) (hc : c < cols) : frame r c ∈ framePixList rows cols frame := by
  unfold framePixList
  simp only [List.mem_flatMap, List.mem_map, List.mem_range]
  exact ⟨r, hr, ⟨c, hc, rfl⟩⟩

/-- C4: for in-range ordered group indices (with defaults 0 and
ngroups - 1 for omitted arguments), get_last_minus_first returns the
per-integration slope formed by subtracting each selected group's own
all-pixel median before differencing, together with the pixel-wise median
of the slope across integrations; equal group indices give an identically
zero slope. -/
theorem lmf_characterization (nints ngroups rows cols : ℕ) (data : ℕ → ℕ → ℕ → ℕ → ℚ)
    (mg Mg : Option ℕ)
    (hmn : mg.getD 0 < ngroups) (hmx : Mg.getD (ngroups - 1) < ngroups)
    (horder : mg.getD 0 ≤ Mg.getD (ngroups - 1)) :
    get_last_minus_first nints ngroups rows cols data mg Mg
      = some (lmfFun rows cols data (mg.getD 0) (Mg.getD (ngroups - 1)),
          lmfMedianFun nints rows cols data (mg.getD 0) (Mg.getD (ngroups - 1))) ∧
    (∀ i r c, i < nints → r < rows → c < cols →
      ∃ ML MF, groupMedian rows cols (data i (Mg.getD (ngroups - 1))) = some ML ∧
        groupMedian rows cols (data i (mg.getD 0)) = some MF ∧
        lmfFun rows cols data (mg.getD 0) (Mg.getD (ngroups - 1)) i r c
          = some ((data i (Mg.getD (ngroups - 1)) r c - ML)
              - (data i (mg.getD 0) r c - MF)) ∧
        (mg.getD 0 = Mg.getD (ngroups - 1) →
          lmfFun rows cols data (mg.getD 0) (Mg.getD (ngroups - 1)) i r c = some 0)) ∧
    (∀ r c, lmfMedianFun nints rows cols data (mg.getD 0) (Mg.getD (ngroups - 1)) r c
      = npMedian ((List.range nints).filterMap
          (fun i => lmfFun rows cols data (mg.getD 0) (Mg.getD (ngroups - 1)) i r c))) := by
  have hcond : ¬(0 < nints ∧ (ngroups ≤ Mg.getD (ngroups - 1) ∨ ngroups ≤ mg.getD 0)) := by
    omega
  refine ⟨by simp only [get_last_minus_first]; rw [if_neg hcond], ?_, fun r c => rfl⟩
  intro i r c _ hr hc
  have hneL : framePixList rows cols (data i (Mg.getD (ngroups - 1))) ≠ [] :=
    List.ne_nil_of_mem (framePixList_mem rows cols _ r c hr hc)
  obtain ⟨ML, hML⟩ := npMedian_of_ne_nil _ hneL
  have hMLg : groupMedian rows cols (data i (Mg.getD (ngroups - 1))) = some ML := hML
  have hneF : framePixList rows cols (data i (mg.getD 0)) ≠ [] :=
    List.ne_nil_of_mem (framePixList_mem rows cols _ r c hr hc)
  obtain ⟨MF, hMF⟩ := npMedian_of_ne_nil _ hneF
  have hMFg : groupMedian rows cols (data i (mg.getD 0)) = some MF := hMF
  refine ⟨ML, MF, hMLg, hMFg, ?_, ?_⟩
  · simp only [lmfFun, hMLg, hMFg]
  · intro heq
    have hsame : MF = ML := by
      rw [heq] at hMFg
      rw [hMLg] at hMFg
      exact (Option.some_inj.mp hMFg).symm
    simp only [lmfFun, hMLg, hMFg, hsame, heq]
    norm_num

/-- Concrete ramp for the C4 witness: one integration, two groups, one
row, two columns. -/
def w4data : ℕ → ℕ → ℕ → ℕ → ℚ := fun _ g _ c => (g : ℚ) * (c + 1)

/-- Witness for C4 at a concrete instance with a defaulted max group. -/
theorem lmf_characterization_witness :
    ((some 0 : Option ℕ).getD 0 < 2) ∧ ((none : Option ℕ).getD (2 - 1) < 2) ∧
    ((some 0 : Option ℕ).getD 0 ≤ (none : Option ℕ).getD (2 - 1)) ∧
    (get_last_minus_first 1 2 1 2 w4data (some 0) none
      = some (lmfFun 1 2 w4data ((some 0 : Option ℕ).getD 0) ((none : Option ℕ).getD (2 - 1)),
          lmfMedianFun 1 1 2 w4data ((some 0 : Option ℕ).getD 0)
            ((none : Option ℕ).getD (2 - 1))) ∧
      (∀ i r c, i < 1 → r < 1 → c < 2 →
        ∃ ML MF, groupMedian 1 2 (w4data i ((none : Option ℕ).getD (2 - 1))) = some ML ∧
          groupMedian 1 2 (w4data i ((some 0 : Option ℕ).getD 0)) = some MF ∧
          lmfFun 1 2 w4data ((some 0 : Option ℕ).getD 0) ((none : Option ℕ).getD (2 - 1)) i r c
            = some ((w4data i ((none : Option ℕ).getD (2 - 1)) r c - ML)
                - (w4data i ((some 0 : Option ℕ).getD 0) r c - MF)) ∧
          ((some 0 : Option ℕ).getD 0 = (none : Option ℕ).getD (2 - 1) →
            lmfFun 1 2 w4data ((some 0 : Option ℕ).getD 0)
              ((none : Option ℕ).getD (2 - 1)) i r c = some 0)) ∧
      (∀ r c, lmfMedianFun 1 1 2 w4data ((some 0 : Option ℕ).getD 0)
          ((none : Option ℕ).getD (2 - 1)) r c
        = npMedian ((List.range 1).filterMap
            (fun i => lmfFun 1 2 w4data ((some 0 : Option ℕ).getD 0)
              ((none : Option ℕ).getD (2 - 1)) i r c)))) :=
  ⟨by decide, by decide, by decide,
    lmf_characterization 1 2 1 2 w4data (some 0) none (by decide) (by decide) (by decide)⟩

/-- Concrete ramp for the C7 counterexample: one integration, two groups,
one row, two columns, with group 0 holding the values 0 and 4 and group 1
identically zero. -/
def c7data : ℕ → ℕ → ℕ → ℕ → ℚ := fun _ g _ c => if g = 0 ∧ c = 1 then 4 else 0

/-- Counterexample to C7: called with min_group = 1 greater than
max_group = 0 (both inside the group axis), get_last_minus_first does not
signal any error; it returns a slope estimate whose pixel (0, 0, 1)
equals 2. -/
theorem lmf_group_order_counterexample :
    (get_last_minus_first 1 2 1 2 c7data (some 1) (some 0)).map (fun p => p.1 0 0 1)
        = some (some 2) ∧
    get_last_minus_first 1 2 1 2 c7data (some 1) (some 0) ≠ none := by
  constructor
  · norm_num [get_last_minus_first, lmfFun, groupMedian, framePixList, npMedian,
      sortedList, List.insertionSort, List.orderedInsert, c7data, List.range_succ]
  · intro h
    rw [show get_last_minus_first 1 2 1 2 c7data (some 1) (some 0)
        = some (lmfFun 1 2 c7data 1 0, lmfMedianFun 1 1 2 c7data 1 0) from by
      simp only [get_last_minus_first]
      norm_num] at h
    exact Option.noConfusion h

/-- C7 amended: get_last_minus_first performs no ordering check on the
group indices; with both resolved indices inside the group axis it always
returns the slope pair, and swapping min_group and max_group negates the
per-integration slope; an index at or beyond the group axis (with at
least one integration to run the loop) yields an index error instead of
any InvalidGroupRange report. -/
theorem lmf_no_group_order_check (nints ngroups rows cols : ℕ)
    (data : ℕ → ℕ → ℕ → ℕ → ℚ) (a b : ℕ) (ha : a < ngroups) (hb : b < ngroups) :
    (get_last_minus_first nints ngroups rows cols data (some a) (some b)
      = some (lmfFun rows cols data a b, lmfMedianFun nints rows cols data a b)) ∧
    (∀ i r c, (lmfFun rows cols data a b i r c).map (fun v => -v)
        = lmfFun rows cols data b a i r c) ∧
    (∀ g, ngroups ≤ g → 0 < nints →
      get_last_minus_first nints ngroups rows cols data (some g) (some b) = none ∧
      get_last_minus_first nints ngroups rows cols data (some a) (some g) = none) := by
  refine ⟨?_, ?_, ?_⟩
  · have hcond : ¬(0 < nints ∧ (ngroups ≤ (some b : Option ℕ).getD (ngroups - 1)
        ∨ ngroups ≤ (some a : Option ℕ).getD 0)) := by
      simp only [Option.getD_some]
      omega
    simp only [get_last_minus_first]
    rw [if_neg hcond]
    simp only [Option.getD_some]
  · intro i r c
    unfold lmfFun
    rcases h1 : groupMedian rows cols (data i b) with _ | M1 <;>
      rcases h2 : groupMedian rows cols (data i a) with _ | M2 <;>
        simp [h1, h2]
  · intro g hg hn
    constructor
    · have hcond : 0 < nints ∧ (ngroups ≤ (some b : Option ℕ).getD (ngroups - 1)
          ∨ ngroups ≤ (some g : Option ℕ).getD 0) := by
        simp only [Option.getD_some]
        omega
      simp only [get_last_minus_first]
      rw [if_pos hcond]
    · have hcond : 0 < nints ∧ (ngroups ≤ (some g : Option ℕ).getD (ngroups - 1)
          ∨ ngroups ≤ (some a : Option ℕ).getD 0) := by
        simp only [Option.getD_some]
        omega
      simp only [get_last_minus_first]
      rw [if_pos hcond]

/-- Witness for the amended C7 at the concrete counterexample ramp. -/
theorem lmf_no_group_order_check_witness :
    (1 < 2) ∧ (0 < 2) ∧
    ((get_last_minus_first 1 2 1 2 c7data (some 1) (some 0)
      = some (lmfFun 1 2 c7data 1 0, lmfMedianFun 1 1 2 c7data 1 0)) ∧
    (∀ i r c, (lmfFun 1 2 c7data 1 0 i r c).map (fun v => -v)
        = lmfFun 1 2 c7data 0 1 i r c) ∧
    (∀ g, 2 ≤ g → 0 < 1 →
      get_last_minus_first 1 2 1 2 c7data (some g) (some 0) = none ∧
      get_last_minus_first 1 2 1 2 c7data (some 1) (some g) = none)) :=
  ⟨by decide, by decide,
    lmf_no_group_order_check 1 2 1 2 c7data 1 0 (by decide) (by decide)⟩

/-- The 10 x 6 synthetic frame of the specification scenario: constant
odd-row offset 5, even-row offset 2, plus the column ramp 0..5 on a zero
background. -/
def synthFrame : ℕ → ℕ → ℚ := fun r c => (if r % 2 = 1 then 5 else 2) + c

/-- Scalar median of the odd rows of the synthetic frame under the
all-ones mask. -/
theorem synth_parity_one :
    npMedian (parityRowsList 10 6 synthFrame onesMask 1) = some (15 / 2) := by
  norm_num [npMedian, parityRowsList, sortedList, List.insertionSort, List.orderedInsert,
    synthFrame, onesMask, List.range_succ]

/-- Scalar median of the even rows of the synthetic frame under the
all-ones mask. -/
theorem synth_parity_zero :
    npMedian (parityRowsList 10 6 synthFrame onesMask 0) = some (9 / 2) := by
  norm_num [npMedian, parityRowsList, sortedList, List.insertionSort, List.orderedInsert,
    synthFrame, onesMask, List.range_succ]

/-- Per-column medians of the synthetic frame over all rows: each column
mixes the two parity levels, so its median is c + 7/2, not the injected
ramp value c. -/
theorem synth_col (c : ℕ) (hc : c < 6) :
    nanColMedian 10 synthFrame onesMask c = some ((c : ℚ) + 7 / 2) := by
  interval_cases c <;>
    norm_num [nanColMedian, maskedColList, npMedian, sortedList, List.insertionSort,
      List.orderedInsert, synthFrame, onesMask, List.range_succ]


/-- Counterexample to C9: on the synthetic frame the ROEBA model does not
reproduce the injected pattern; at pixel (1, 0) the model value is 11
while the injected pattern value is 5. -/
theorem roeba_synth_counterexample :
    get_roeba 10 6 synthFrame onesMask 1 0 = some 11 ∧ synthFrame 1 0 = 5 ∧
    get_roeba 10 6 synthFrame onesMask 1 0 ≠ some (synthFrame 1 0) := by
  have hc0 : nanColMedian 10 synthFrame onesMask 0 = some (7 / 2) := by
    have h := synth_col 0 (by norm_num)
    simpa using h
  have ha : get_roeba 10 6 synthFrame onesMask 1 0 = some 11 := by
    have h12 : (1 : ℕ) % 2 = 1 := rfl
    simp only [get_roeba, h12, synth_parity_one, hc0]
    norm_num
  have hb : synthFrame 1 0 = 5 := by norm_num [synthFrame]
  refine ⟨ha, hb, ?_⟩
  rw [ha, hb]
  intro h
  exact absurd (Option.some_inj.mp h) (by norm_num)

/-- C9 amended: on the 10 x 6 synthetic frame under the all-ones mask,
the ROEBA model recovers parity scalars 15/2 and 9/2 and column medians
c + 7/2, so the output equals the injected pattern plus the constant 6
everywhere (the parity contribution is double counted through the
per-column median), rather than the injected pattern itself. -/
theorem roeba_synth_amended (r c : ℕ) (hr : r < 10) (hc : c < 6) :
    get_roeba 10 6 synthFrame onesMask r c = some (synthFrame r c + 6) := by
  have hcol := synth_col c hc
  rcases Nat.mod_two_eq_zero_or_one r with hpar | hpar
  · simp only [get_roeba, hpar, synth_parity_zero, hcol]
    simp only [synthFrame, hpar]
    norm_num
    ring
  · simp only [get_roeba, hpar, synth_parity_one, hcol]
    simp only [synthFrame, hpar]
    norm_num
    ring

/-- Witness for the amended C9 at pixel (0, 0). -/
theorem roeba_synth_amended_witness :
    (0 < 10) ∧ (0 < 6) ∧
    get_roeba 10 6 synthFrame onesMask 0 0 = some (synthFrame 0 0 + 6) :=
  ⟨by decide, by decide, roeba_synth_amended 0 0 (by decide) (by decide)⟩

/-- Concrete ramp for the C8 failing input: one integration, two groups,
two rows, two columns; group 0 is identically zero and group 1 holds a
single nonzero pixel of value 8 at (0, 1). -/
def c8data : ℕ → ℕ → ℕ → ℕ → ℚ := fun _ g r c => if g = 1 ∧ r = 0 ∧ c = 1 then 8 else 0

/-- Totalised corrected ramp of the C8 failing input (every model value
is defined under the all-ones mask, so getD only strips the some). -/
def c8corr : ℕ → ℕ → ℕ → ℕ → ℚ :=
  fun i g r c => (stage1_roeba_corrected 2 2 c8data onesMask i g r c).getD 0

/-- Values of the corrected ramp of the C8 failing input on its grid. -/
theorem c8sc_vals :
    stage1_roeba_corrected 2 2 c8data onesMask 0 0 0 0 = some 0 ∧
    stage1_roeba_corrected 2 2 c8data onesMask 0 0 0 1 = some 0 ∧
    stage1_roeba_corrected 2 2 c8data onesMask 0 0 1 0 = some 0 ∧
    stage1_roeba_corrected 2 2 c8data onesMask 0 0 1 1 = some 0 ∧
    stage1_roeba_corrected 2 2 c8data onesMask 0 1 0 0 = some (-4) ∧
    stage1_roeba_corrected 2 2 c8data onesMask 0 1 0 1 = some 0 ∧
    stage1_roeba_corrected 2 2 c8data onesMask 0 1 1 0 = some 0 ∧
    stage1_roeba_corrected 2 2 c8data onesMask 0 1 1 1 = some (-4) := by
  refine ⟨?_, ?_, ?_, ?_, ?_, ?_, ?_, ?_⟩ <;>
    norm_num [stage1_roeba_corrected, get_roeba, parityRowsList, nanColMedian,
      maskedColList, npMedian, sortedList, List.insertionSort, List.orderedInsert,
      c8data, onesMask, List.range_succ]

/-- Group medians of the corrected C8 ramp: the corrected last group has
median -2 while the corrected first group has median 0. -/
theorem c8corr_medians :
    groupMedian 2 2 (c8corr 0 1) = some (-2) ∧ groupMedian 2 2 (c8corr 0 0) = some 0 := by
  obtain ⟨h1, h2, h3, h4, h5, h6, h7, h8⟩ := c8sc_vals
  have hv1 : c8corr 0 1 0 0 = -4 := by rw [c8corr, h5]; rfl
  have hv2 : c8corr 0 1 0 1 = 0 := by rw [c8corr, h6]; rfl
  have hv3 : c8corr 0 1 1 0 = 0 := by rw [c8corr, h7]; rfl
  have hv4 : c8corr 0 1 1 1 = -4 := by rw [c8corr, h8]; rfl
  have hw1 : c8corr 0 0 0 0 = 0 := by rw [c8corr, h1]; rfl
  have hw2 : c8corr 0 0 0 1 = 0 := by rw [c8corr, h2]; rfl
  have hw3 : c8corr 0 0 1 0 = 0 := by rw [c8corr, h3]; rfl
  have hw4 : c8corr 0 0 1 1 = 0 := by rw [c8corr, h4]; rfl
  have hlist1 : framePixList 2 2 (c8corr 0 1)
      = [c8corr 0 1 0 0, c8corr 0 1 0 1, c8corr 0 1 1 0, c8corr 0 1 1 1] := by
    simp [framePixList, List.range_succ]
  have hlist0 : framePixList 2 2 (c8corr 0 0)
      = [c8corr 0 0 0 0, c8corr 0 0 0 1, c8corr 0 0 1 0, c8corr 0 0 1 1] := by
    simp [framePixList, List.range_succ]
  constructor
  · rw [groupMedian, hlist1, hv1, hv2, hv3, hv4]
    norm_num [npMedian, sortedList, List.insertionSort, List.orderedInsert]
  · rw [groupMedian, hlist0, hw1, hw2, hw3, hw4]
    norm_num [npMedian, sortedList, List.insertionSort, List.orderedInsert]

/-- C8: the after-correction slope recorded by stage1 diverges from the
Slope Estimator applied to the corrected data.  On the concrete ramp the
recorded value at pixel (0, 0, 0) is -4, the plain difference of the
corrected groups, while get_last_minus_first on the same corrected ramp
(the computation stage1 itself performs when reloading saved products)
returns -2 there because it removes each corrected group's own median
first. -/
theorem stage1_after_slope_divergence :
    stage1_lmf_after (stage1_roeba_corrected 2 2 c8data onesMask) 1 0 0 0 0
        = some (-4) ∧
    (get_last_minus_first 1 2 2 2 c8corr (some 0) (some 1)).map (fun p => p.1 0 0 0)
        = some (some (-2)) ∧
    (some (-4 : ℚ) : Option ℚ) ≠ some (-2 : ℚ) := by
  obtain ⟨h1, _, _, _, h5, _, _, _⟩ := c8sc_vals
  obtain ⟨hm1, hm0⟩ := c8corr_medians
  refine ⟨?_, ?_, ?_⟩
  · rw [stage1_lmf_after, h5, h1]
    norm_num
  · have hmain : get_last_minus_first 1 2 2 2 c8corr (some 0) (some 1)
        = some (lmfFun 2 2 c8corr 0 1, lmfMedianFun 1 2 2 c8corr 0 1) := by
      simp only [get_last_minus_first]
      norm_num
    rw [hmain]
    show some (lmfFun 2 2 c8corr 0 1 0 0 0) = some (some (-2))
    have hv1 : c8corr 0 1 0 0 = -4 := by rw [c8corr, h5]; rfl
    have hw1 : c8corr 0 0 0 0 = 0 := by rw [c8corr, h1]; rfl
    simp only [lmfFun, hm1, hm0, hv1, hw1]
    norm_num
  · intro h
    exact absurd (Option.some_inj.mp h) (by norm_num)

/-- C6: a mask column with no surviving pixel makes its robust column
statistics undefined (propagated as a missing value, never a numeric
zero, so the outlier test never fires there), zeroes out row and column
j0 + 2 of the LOOM normal-equations system together with its right-hand
side, and consequently every minimum-norm least-squares solution of the
system has a vanishing coefficient for the empty column. -/
theorem loom_empty_column (m n : ℕ) (data mask : ℕ → ℕ → ℚ) (j0 : ℕ)
    (hj0 : j0 < n) (hcol : ∀ i, mask i j0 = 0)
    (hpop : ∃ i j, i < m ∧ j < n ∧ j ≠ j0 ∧ mask i j = 1) :
    nanColMedian m data mask j0 = none ∧
    nanColMad m data mask j0 = none ∧
    (∀ i nsigma, ccOutlierFlag m data mask nsigma i j0 = false) ∧
    (∀ q, loomA m n mask (j0 + 2) q = 0) ∧
    (∀ p, loomA m n mask p (j0 + 2) = 0) ∧
    loomB m n data mask (j0 + 2) = 0 ∧
    (∀ x, IsMinNormLS (n + 2) (loomA m n mask) (loomB m n data mask) x →
      x (j0 + 2) = 0) := by
  have hlist : maskedColList m data mask j0 = [] := by
    unfold maskedColList
    have hfil : (List.range m).filter (fun i => decide (mask i j0 ≠ 0)) = [] := by
      rw [List.filter_eq_nil_iff]
      intro a _
      simp [hcol a]
    rw [hfil]
    rfl
  have hmed : nanColMedian m data mask j0 = none := by
    unfold nanColMedian
    rw [hlist]
    rfl
  have hmad : nanColMad m data mask j0 = none := by
    unfold nanColMad
    rw [hmed]
    rfl
  have hflag : ∀ i nsigma, ccOutlierFlag m data mask nsigma i j0 = false := by
    intro i nsigma
    unfold ccOutlierFlag
    rw [hmed]
  have hz0 : ¬(j0 + 2 = 0) := by omega
  have hz1 : ¬(j0 + 2 = 1) := by omega
  have hnodd : nodd_j m mask j0 = 0 := by
    unfold nodd_j
    apply Finset.sum_eq_zero
    intro i _
    rw [hcol i]
    simp
  have hneven : neven_j m mask j0 = 0 := by
    unfold neven_j
    apply Finset.sum_eq_zero
    intro i _
    rw [hcol i]
    simp
  have hnrows : nrows_j m mask j0 = 0 := by
    unfold nrows_j
    apply Finset.sum_eq_zero
    intro i _
    exact hcol i
  have hbcol : colMaskedSum m data mask j0 = 0 := by
    unfold colMaskedSum
    apply Finset.sum_eq_zero
    intro i _
    rw [hcol i]
    ring
  have hrow : ∀ q, loomA m n mask (j0 + 2) q = 0 := by
    intro q
    simp only [loomA, hz0, hz1, if_false]
    split_ifs with hq0 hq1 hqd
    · rw [Nat.add_sub_cancel]
      exact hnodd
    · rw [Nat.add_sub_cancel]
      exact hneven
    · rw [Nat.add_sub_cancel]
      exact hnrows
    · rfl
  have hcolA : ∀ p, loomA m n mask p (j0 + 2) = 0 := by
    intro p
    simp only [loomA, hz0, hz1, if_false]
    split_ifs with hp0 hp1 hpd
    · rw [Nat.add_sub_cancel]
      exact hnodd
    · rw [Nat.add_sub_cancel]
      exact hneven
    · rw [← hpd, Nat.add_sub_cancel]
      exact hnrows
    · rfl
  have hbside : loomB m n data mask (j0 + 2) = 0 := by
    simp only [loomB, hz0, hz1, if_false]
    rw [Nat.add_sub_cancel]
    exact hbcol
  refine ⟨hmed, hmad, hflag, hrow, hcolA, hbside, ?_⟩
  intro x hx
  have hres : lsResid (n + 2) (loomA m n mask) (loomB m n data mask)
      (fun q => if q = j0 + 2 then 0 else x q)
      = lsResid (n + 2) (loomA m n mask) (loomB m n data mask) x := by
    unfold lsResid
    refine Finset.sum_congr rfl ?_
    intro p _
    have hsum : ∑ q ∈ Finset.range (n + 2),
        loomA m n mask p q * (if q = j0 + 2 then 0 else x q)
        = ∑ q ∈ Finset.range (n + 2), loomA m n mask p q * x q := by
      refine Finset.sum_congr rfl ?_
      intro q _
      by_cases hq : q = j0 + 2
      · subst hq
        rw [hcolA p]
        ring
      · rw [if_neg hq]
    rw [hsum]
  have hnorm := hx.2 _ (le_of_eq hres)
  have hj : j0 + 2 ∈ Finset.range (n + 2) := by
    simp only [Finset.mem_range]
    omega
  have h1 : vecNormSq (n + 2) x
      = (∑ q ∈ (Finset.range (n + 2)).erase (j0 + 2), x q ^ 2) + x (j0 + 2) ^ 2 :=
    (Finset.sum_erase_add _ _ hj).symm
  have h2 : vecNormSq (n + 2) (fun q => if q = j0 + 2 then 0 else x q)
      = ∑ q ∈ (Finset.range (n + 2)).erase (j0 + 2), x q ^ 2 := by
    unfold vecNormSq
    rw [← Finset.sum_erase_add _ _ hj]
    have he : ∑ q ∈ (Finset.range (n + 2)).erase (j0 + 2),
        (if q = j0 + 2 then (0 : ℚ) else x q) ^ 2
        = ∑ q ∈ (Finset.range (n + 2)).erase (j0 + 2), x q ^ 2 := by
      refine Finset.sum_congr rfl ?_
      intro q hq
      rw [if_neg (Finset.ne_of_mem_erase hq)]
    rw [he]
    simp
  have hle : x (j0 + 2) ^ 2 ≤ 0 := by
    rw [h1, h2] at hnorm
    linarith
  have h0 : x (j0 + 2) ^ 2 = 0 := le_antisymm hle (sq_nonneg _)
  exact (pow_eq_zero_iff (by norm_num)).mp h0

/-- Concrete 1 x 2 frame for the C6 witness. -/
def w6data : ℕ → ℕ → ℚ := fun _ c => if c = 1 then 6 else 0

/-- Concrete 0/1 mask for the C6 witness: column 0 fully masked out,
column 1 fully kept. -/
def w6mask : ℕ → ℕ → ℚ := fun _ c => if c = 1 then 1 else 0

/-- Witness for C6 at the concrete 1 x 2 instance with an empty column 0. -/
theorem loom_empty_column_witness :
    (0 < 2) ∧ (∀ i, w6mask i 0 = 0) ∧
    (∃ i j, i < 1 ∧ j < 2 ∧ j ≠ 0 ∧ w6mask i j = 1) ∧
    (nanColMedian 1 w6data w6mask 0 = none ∧
      nanColMad 1 w6data w6mask 0 = none ∧
      (∀ i nsigma, ccOutlierFlag 1 w6data w6mask nsigma i 0 = false) ∧
      (∀ q, loomA 1 2 w6mask (0 + 2) q = 0) ∧
      (∀ p, loomA 1 2 w6mask p (0 + 2) = 0) ∧
      loomB 1 2 w6data w6mask (0 + 2) = 0 ∧
      (∀ x, IsMinNormLS (2 + 2) (loomA 1 2 w6mask) (loomB 1 2 w6data w6mask) x →
        x (0 + 2) = 0)) := by
  have hcol : ∀ i, w6mask i 0 = 0 := by
    intro i
    norm_num [w6mask]
  have hpop : ∃ i j, i < 1 ∧ j < 2 ∧ j ≠ 0 ∧ w6mask i j = 1 :=
    ⟨0, 1, by norm_num [w6mask]⟩
  exact ⟨by norm_num, hcol, hpop,
    loom_empty_column 1 2 w6data w6mask 0 (by norm_num) hcol hpop⟩

/-- The minimum-norm property is satisfiable on the witness system: the
vector (0, 3, 0, 3) is a least-squares solution of the 4 x 4 system of
the C6 witness instance and has minimal norm among all of them, so the
minimum-norm conjunct of the empty-column theorem is not vacuous. -/
theorem w6_minnorm_witnessed :
    IsMinNormLS (2 + 2) (loomA 1 2 w6mask) (loomB 1 2 w6data w6mask)
      (fun q => if q = 1 then 3 else if q = 3 then 3 else 0) := by
  have hx0 : lsResid (2 + 2) (loomA 1 2 w6mask) (loomB 1 2 w6data w6mask)
      (fun q => if q = 1 then 3 else if q = 3 then 3 else 0) = 0 := by
    norm_num [lsResid, loomA, loomB, nO_stat, nE_stat, nodd_j, neven_j, nrows_j,
      oddMaskedSum, evenMaskedSum, colMaskedSum, w6data, w6mask,
      Finset.sum_range_succ, Finset.sum_range_zero, Finset.range_one,
      Finset.filter_singleton]
  constructor
  · intro y
    rw [hx0]
    exact Finset.sum_nonneg (fun p _ => sq_nonneg _)
  · intro y hy
    rw [hx0] at hy
    have hy0 : lsResid (2 + 2) (loomA 1 2 w6mask) (loomB 1 2 w6data w6mask) y = 0 :=
      le_antisymm hy (Finset.sum_nonneg (fun p _ => sq_nonneg _))
    have hterm : ∀ p ∈ Finset.range (2 + 2),
        ((∑ q ∈ Finset.range (2 + 2), loomA 1 2 w6mask p q * y q)
          - loomB 1 2 w6data w6mask p) ^ 2 = 0 :=
      (Finset.sum_eq_zero_iff_of_nonneg (fun p _ => sq_nonneg _)).mp hy0
    have hrow1 := hterm 1 (by norm_num)
    have hsum1 : (∑ q ∈ Finset.range (2 + 2), loomA 1 2 w6mask 1 q * y q)
        = y 1 + y 3 := by
      norm_num [Finset.sum_range_succ, Finset.sum_range_zero, loomA, nO_stat, nE_stat,
        nodd_j, neven_j, nrows_j, w6mask, Finset.range_one, Finset.filter_singleton]
    have hb1 : loomB 1 2 w6data w6mask 1 = 6 := by
      norm_num [loomB, evenMaskedSum, w6data, w6mask, Finset.sum_range_succ,
        Finset.sum_range_zero]
    rw [hsum1, hb1] at hrow1
    have hy13 : y 1 + y 3 = 6 := by
      have h := (pow_eq_zero_iff (by norm_num : (2 : ℕ) ≠ 0)).mp hrow1
      linarith
    have hnx : vecNormSq (2 + 2)
        (fun q => if q = 1 then (3 : ℚ) else if q = 3 then 3 else 0) = 18 := by
      norm_num [vecNormSq, Finset.sum_range_succ, Finset.sum_range_zero]
    have hny : vecNormSq (2 + 2) y = y 0 ^ 2 + y 1 ^ 2 + y 2 ^ 2 + y 3 ^ 2 := by
      simp [vecNormSq, Finset.sum_range_succ]
    rw [hnx, hny]
    nlinarith [sq_nonneg (y 1 - y 3), sq_nonneg (y 0), sq_nonneg (y 2), hy13]
